import Mathlib

/-!
# Verification of the NetworkAnalysis pipeline (`src/network.py`)

A shallow embedding of the single-script pipeline: load a weighted edgelist
(pandas), filter by a weight threshold, build an undirected graph
(`nx.from_pandas_edgelist`), save a visualization, compute degree /
betweenness / eigenvector centrality, merge them (`pd.merge`) and save a CSV.

Node identifiers are `String`, weights are `Int` (the threshold is passed
through Python's `int`).  The filesystem and matplotlib are the external
collaborators: a "run" returns the list of file writes it performed together
with an optional error, and the graphviz layout engine is a parameter of the
run (it is the only non-deterministic stage).
-/

namespace NetworkAnalysis

/- Batteries marks the `Rat` field operations `@[irreducible]`; the concrete
witnesses and counterexamples below evaluate pipeline runs on small inputs
by kernel reduction, which needs them unfolded. -/
attribute [local semireducible] Rat.add Rat.mul Rat.sub Rat.inv

/-- One row of the weighted edgelist: columns `nodeA`, `nodeB`, `weight`. -/
structure Row where
  nodeA  : String
  nodeB  : String
  weight : Int
deriving DecidableEq, Repr

/-- A pandas data frame as the script sees it: the list of column names the
file declares, paired with the parsed rows.  A pandas column access
`df["c"]` raises `KeyError` when `"c"` is not among the columns; the model
guards every such access by membership in `cols`.  (Cell contents of extra
columns are ignored by the script, so only the three canonical fields are
carried.) -/
structure RawTable where
  cols : List String
  rows : List Row
deriving DecidableEq, Repr

/-- The errors the script can surface (it defines no error classes of its
own): pandas/networkx `KeyError` for a missing column,
`networkx.NetworkXPointlessConcept` ("cannot compute centrality for the
null graph") from `nx.eigenvector_centrality`, and
`networkx.PowerIterationFailedConvergence` from the same function. -/
inductive NxError where
  | keyError (col : String)
  | pointlessConcept
  | powerIterationFailed
deriving DecidableEq, Repr

/-- A networkx `Graph` (simple undirected graph): nodes in insertion order,
and one edge per unordered endpoint pair, each carrying its `weight`
attribute.  Edges are kept in insertion order as `(u, v, w)` triples. -/
structure Graph where
  nodes : List String
  edges : List (String × String × Int)
deriving DecidableEq, Repr

/-- There is no derived decidable equality for `Except` in core; the
counterexamples and witnesses below evaluate `Except`-valued runs. -/
instance {ε α : Type} [DecidableEq ε] [DecidableEq α] :
    DecidableEq (Except ε α) := fun x y =>
  match x, y with
  | .error e, .error e' =>
    if h : e = e' then .isTrue (by rw [h]) else .isFalse (by simp [h])
  | .error _, .ok _ => .isFalse (by simp)
  | .ok _, .error _ => .isFalse (by simp)
  | .ok a, .ok a' =>
    if h : a = a' then .isTrue (by rw [h]) else .isFalse (by simp [h])

/-- `EdgeOn e u v`: the stored edge `e` joins the unordered pair `{u, v}`.
(An `abbrev`, so decidability is found structurally and evaluates in the
kernel.) -/
abbrev EdgeOn (e : String × String × Int) (u v : String) : Prop :=
  (e.1 = u ∧ e.2.1 = v) ∨ (e.1 = v ∧ e.2.1 = u)

/-- `RowOn r u v`: the edgelist row `r` has endpoints `{u, v}` (unordered). -/
abbrev RowOn (r : Row) (u v : String) : Prop :=
  (r.nodeA = u ∧ r.nodeB = v) ∨ (r.nodeA = v ∧ r.nodeB = u)

/-- `networkx.Graph.add_node`: appends the node unless already present. -/
def addNode (g : Graph) (n : String) : Graph :=
  if n ∈ g.nodes then g else { g with nodes := g.nodes ++ [n] }

/-- `networkx.Graph.add_edge(u, v, weight := w)`: adds the endpoints as nodes
when missing; if an edge on the unordered pair `{u, v}` already exists, its
`weight` attribute is overwritten (the stored endpoint orientation is kept),
otherwise the edge is appended. -/
def addEdge (g : Graph) (u v : String) (w : Int) : Graph :=
  { nodes := (addNode (addNode g u) v).nodes
    edges :=
      if g.edges.any (fun e => decide (EdgeOn e u v)) then
        g.edges.map (fun e => if EdgeOn e u v then (e.1, e.2.1, w) else e)
      else
        g.edges ++ [(u, v, w)] }

/-- Graph construction from the parsed rows: one `add_edge` per row, in row
order, exactly as `nx.from_pandas_edgelist(df, "nodeA", "nodeB", ["weight"])`
iterates the data frame. -/
def buildGraph (rows : List Row) : Graph :=
  rows.foldl (fun g r => addEdge g r.nodeA r.nodeB r.weight) ⟨[], []⟩

/-- `nx.from_pandas_edgelist(filtered_df, "nodeA", "nodeB", ["weight"])`:
accesses the `nodeA`, `nodeB` and `weight` columns (raising `KeyError` on a
missing one) and builds the graph row by row. -/
def from_pandas_edgelist (t : RawTable) : Except NxError Graph :=
  if "nodeA" ∈ t.cols then
    if "nodeB" ∈ t.cols then
      if "weight" ∈ t.cols then
        .ok (buildGraph t.rows)
      else .error (.keyError "weight")
    else .error (.keyError "nodeB")
  else .error (.keyError "nodeA")

/-- `Network.load_and_filter`: reads the csv (the parsed table is the input
of the model) and keeps the rows with
`weighted_edgelist["weight"] > self.weight_threshold` — strictly greater.
The `"weight"` column access raises `KeyError` when the column is missing;
an empty result is not an error. -/
def load_and_filter (t : RawTable) (threshold : Int) : Except NxError RawTable :=
  if "weight" ∈ t.cols then
    .ok { t with rows := t.rows.filter (fun r => threshold < r.weight) }
  else .error (.keyError "weight")

/-- The `include_labels` argument: `none` models the argparse default (the
Python boolean `False`), `some s` a string supplied on the command line. -/
abbrev LabelFlag := Option String

/-- The test `self.labels == "True"` of `network_viz`: only the literal
string `"True"` passes (the boolean default and any other string, including
`"true"`, compare unequal). -/
def labelsOn : LabelFlag → Bool
  | some s => s == "True"
  | none   => false

/-- A graphviz layout: 2D coordinates per node. -/
abbrev Layout := List (String × Rat × Rat)

/-- Contents of the files the script writes: the rendered figure (determined
by the graph, the node positions and whether labels were drawn) or the csv
text lines. -/
inductive FileContent where
  | image (g : Graph) (pos : Layout) (withLabels : Bool)
  | csv (lines : List String)
deriving DecidableEq, Repr

/-- A file written by the run: destination path and content. -/
structure FileWrite where
  path    : String
  content : FileContent
deriving DecidableEq, Repr

/-- The output path chosen by `network_viz`:
`os.path.join("..", "viz", "network_w_labels.png")` when labels are on,
else `network.png`. -/
def viz_filename (labels : LabelFlag) : String :=
  if labelsOn labels then "../viz/network_w_labels.png" else "../viz/network.png"

/-- `Network.network_viz`: builds the graph from the filtered data frame,
computes the graphviz layout, draws the graph (with labels exactly when
`self.labels == "True"`) and saves the figure.  Returns the file write and
the graph.  The layout engine is the `layout` parameter. -/
def network_viz (layout : Graph → Layout) (t : RawTable) (labels : LabelFlag) :
    Except NxError (FileWrite × Graph) :=
  match from_pandas_edgelist t with
  | .error e => .error e
  | .ok G => .ok (⟨viz_filename labels, .image G (layout G) (labelsOn labels)⟩, G)

/-- Degree of a node in a networkx graph: the number of edge ends incident
to it (a self-loop contributes 2, as in `networkx.Graph.degree`). -/
def degree (g : Graph) (v : String) : Nat :=
  g.edges.foldl
    (fun d e => d + (if e.1 = v then 1 else 0) + (if e.2.1 = v then 1 else 0)) 0

/-- `nx.degree_centrality(G)`: `{n: 1 for n in G}` when `len(G) <= 1`,
otherwise `degree(n) / (len(G) - 1)` for every node. -/
def degree_centrality (g : Graph) : List (String × Rat) :=
  if g.nodes.length ≤ 1 then g.nodes.map (fun n => (n, 1))
  else g.nodes.map (fun n => (n, (degree g n : Rat) / ((g.nodes.length : Rat) - 1)))

/-- Adjacency of a node: the other endpoint of every incident edge (a
self-loop contributes the node itself, once — as in networkx adjacency). -/
def nbrs (g : Graph) (v : String) : List String :=
  g.edges.foldr
    (fun e acc =>
      if e.1 = v ∧ e.2.1 = v then v :: acc
      else if e.1 = v then e.2.1 :: acc
      else if e.2.1 = v then e.1 :: acc
      else acc) []

/-- All simple paths from `c` to `t` avoiding `visited`, with fuel (the node
count bounds every simple path's length). -/
def pathsTo (g : Graph) (t : String) : Nat → String → List String → List (List String)
  | 0, c, _ => if c = t then [[c]] else []
  | fuel + 1, c, visited =>
    if c = t then [[c]]
    else
      ((nbrs g c).filter (fun u => !visited.contains u)).flatMap
        (fun u => (pathsTo g t fuel u (u :: visited)).map (fun p => c :: p))

/-- The shortest `s`–`t` paths (hop count): the minimum-length members of
the simple-path enumeration.  Every shortest path is simple, so this is the
path set `nx.betweenness_centrality` counts with its default unweighted
BFS. -/
def shortest_paths (g : Graph) (s t : String) : List (List String) :=
  let ps := pathsTo g t g.nodes.length s [s]
  ps.filter (fun p => ps.all (fun q => decide (p.length ≤ q.length)))

/-- The Brandes pair dependency `σ_{st}(v) / σ_{st}`: the fraction of
shortest `s`–`t` paths through `v` (0 when `t` is unreachable from `s`). -/
def pair_dependency (g : Graph) (v s t : String) : Rat :=
  let sp := shortest_paths g s t
  if sp.length = 0 then 0
  else ((sp.countP (fun p => p.contains v) : Rat)) / (sp.length : Rat)

/-- The unscaled betweenness accumulation of `nx.betweenness_centrality`:
the sum of the pair dependencies over all ordered pairs `(s, t)` of distinct
nodes both different from `v` (Brandes accumulates every unordered pair
twice, once per source). -/
def raw_betweenness (g : Graph) (v : String) : Rat :=
  g.nodes.foldl
    (fun acc s =>
      acc + g.nodes.foldl
        (fun acc2 t =>
          acc2 + (if s ≠ t ∧ v ≠ s ∧ v ≠ t then pair_dependency g v s t else 0)) 0) 0

/-- `nx.betweenness_centrality(G)` (defaults: unweighted, `normalized=True`,
`endpoints=False`): the accumulated dependencies rescaled by
`1 / ((n - 1) * (n - 2))`, with no rescaling when `n ≤ 2` (where the
accumulation is 0 anyway). -/
def betweenness_centrality (g : Graph) : List (String × Rat) :=
  let n := g.nodes.length
  if n ≤ 2 then g.nodes.map (fun v => (v, raw_betweenness g v))
  else g.nodes.map (fun v => (v, raw_betweenness g v / (((n : Rat) - 1) * ((n : Rat) - 2))))

/-- Value of a node in a score vector kept as an association list. -/
def xval (x : List (String × Rat)) (v : String) : Rat :=
  ((x.find? (fun p => p.1 == v)).map (fun p => p.2)).getD 0

/-- One multiplication of the power iteration of `nx.eigenvector_centrality`
(default `weight=None`, so every edge counts 1): iterating with `A + I`,
`x'[v] = x[v] + Σ_{u ∈ adj(v)} x[u]`. -/
def eigStep (g : Graph) (x : List (String × Rat)) : List (String × Rat) :=
  g.nodes.map (fun v => (v, xval x v + (nbrs g v).foldl (fun s u => s + xval x u) 0))

/-- Python's `abs` on an exact rational. -/
def ratAbs (q : Rat) : Rat := if q < 0 then -q else q

/-- The 1-norm of a score vector. -/
def l1norm (x : List (String × Rat)) : Rat :=
  x.foldl (fun s p => s + ratAbs p.2) 0

/-- The convergence gauge of `nx.eigenvector_centrality`:
`sum(abs(x[n] - xlast[n]) for n in x)`. -/
def eigDiff (g : Graph) (x y : List (String × Rat)) : Rat :=
  g.nodes.foldl (fun s v => s + ratAbs (xval x v - xval y v)) 0

/-- The default tolerance `tol = 1.0e-6` of `nx.eigenvector_centrality`. -/
def eigTol : Rat := 1 / 1000000

/-- The per-iteration rescaling `x = {k: v / norm ...}` with
`norm = ... or 1` of `nx.eigenvector_centrality`.  The source normalizes by
the Euclidean norm (`math.hypot`), an irrational quantity; the model
normalizes by the 1-norm so every iterate stays an exact rational.  No
claim below depends on the numeric scores — only on the error cases, the
key set of the result and determinism, none of which the choice of norm
affects. -/
def eigNormalize (y : List (String × Rat)) : List (String × Rat) :=
  let nrm := l1norm y
  let nrm := if nrm = 0 then 1 else nrm
  y.map (fun p => (p.1, p.2 / nrm))

/-- The iteration loop of `nx.eigenvector_centrality` (default
`max_iter=100`): multiply by `A + I`, normalize, and stop once the change is
below `nnodes * tol`.  `none` models `PowerIterationFailedConvergence`. -/
def eigLoop (g : Graph) : Nat → List (String × Rat) → Option (List (String × Rat))
  | 0, _ => none
  | fuel + 1, x =>
    let x' := eigNormalize (eigStep g x)
    if eigDiff g x' x < (g.nodes.length : Rat) * eigTol then some x'
    else eigLoop g fuel x'

/-- `nx.eigenvector_centrality(G)`: raises `NetworkXPointlessConcept` on the
null graph; otherwise runs the power iteration from the uniform start vector
`{v: 1/n}`, raising `PowerIterationFailedConvergence` if the loop exhausts
its 100 iterations. -/
def eigenvector_centrality (g : Graph) : Except NxError (List (String × Rat)) :=
  if g.nodes.length = 0 then .error .pointlessConcept
  else
    let x0 := g.nodes.map (fun v => (v, (1 : Rat) / (g.nodes.length : Rat)))
    match eigLoop g 100 x0 with
    | some x => .ok x
    | none => .error .powerIterationFailed

/-- `pd.merge(left, right, on='node')` for the frames the script merges:
an inner join on the key, emitting, for every left row in order, one output
row per right row with the same key. -/
def pdMerge {α β : Type} (l : List (String × α)) (r : List (String × β)) :
    List (String × α × β) :=
  l.flatMap (fun a => (r.filter (fun b => b.1 == a.1)).map (fun b => (a.1, a.2, b.2)))

/-- The reconciled centrality table: node, (degree, betweenness),
eigenvector — the row layout produced by the two `pd.merge` calls. -/
abbrev CTable := List (String × (Rat × Rat) × Rat)

/-- `Network.calc_centrality` up to the file write: the three centrality
dictionaries are computed on the same graph and merged on `node` twice.
(The degree and betweenness computations are total; the run is stopped by
the only fallible one, `nx.eigenvector_centrality`.) -/
def calc_centrality (g : Graph) : Except NxError CTable :=
  let d := degree_centrality g
  let b := betweenness_centrality g
  match eigenvector_centrality g with
  | .error e => .error e
  | .ok ev => .ok (pdMerge (pdMerge d b) ev)

/-- A plain decimal-free rendering of a rational for the csv model. -/
def ratStr (q : Rat) : String :=
  toString q.num ++ "/" ++ toString q.den

/-- `centrality_df.to_csv(df_path, index=False)`: the header line followed
by one line per table row, in table order. -/
def csvLines (tab : CTable) : List String :=
  "node,degree,betweenness,eigenvector" ::
    tab.map (fun r =>
      r.1 ++ "," ++ ratStr r.2.1.1 ++ "," ++ ratStr r.2.1.2 ++ "," ++ ratStr r.2.2)

/-- The path `os.path.join("..", "output", "centrality_measures.csv")`. -/
def csvPath : String := "../output/centrality_measures.csv"

/-- `main`: load and filter, then `network_viz` (which saves the figure),
then `calc_centrality` (which saves the csv).  The result is the list of
file writes performed, in order, paired with the error that stopped the run
(if any).  `layout` is the graphviz layout engine. -/
def runPipeline (layout : Graph → Layout) (t : RawTable) (threshold : Int)
    (labels : LabelFlag) : List FileWrite × Option NxError :=
  match load_and_filter t threshold with
  | .error e => ([], some e)
  | .ok filtered =>
    match network_viz layout filtered labels with
    | .error e => ([], some e)
    | .ok (viz, G) =>
      match calc_centrality G with
      | .error e => ([viz], some e)
      | .ok tab => ([viz, ⟨csvPath, .csv (csvLines tab)⟩], none)

/-! ## Concrete fixtures used by witnesses and counterexamples -/

/-- A trivial layout engine (the run never inspects the positions). -/
def L0 : Graph → Layout := fun _ => []

/-- A well-formed one-row table whose row survives threshold 500. -/
def tGood : RawTable := ⟨["nodeA", "nodeB", "weight"], [⟨"A", "B", 600⟩]⟩

/-- A well-formed table whose single row is below threshold 500. -/
def tBelow : RawTable := ⟨["nodeA", "nodeB", "weight"], [⟨"A", "B", 100⟩]⟩

/-- Another all-below-threshold table. -/
def tBelow2 : RawTable := ⟨["nodeA", "nodeB", "weight"], [⟨"X", "Y", 42⟩]⟩

/-- A table lacking the required `nodeA` column. -/
def tNoA : RawTable := ⟨["nodeB", "weight"], [⟨"A", "B", 600⟩]⟩

/-- The csv files among a run's writes (path and text content). -/
def csvOutputs (res : List FileWrite × Option NxError) : List (String × List String) :=
  res.1.filterMap (fun w =>
    match w.content with
    | .csv lines => some (w.path, lines)
    | _ => none)

/-! ## C4: the threshold filter -/

/-- **C4**: for every loaded relation (the `weight` column is present) and
integer threshold, filtering succeeds and keeps exactly the rows whose
weight is strictly greater than the threshold (a row with weight equal to
the threshold is removed), and when no rows qualify the result is the empty
relation, not an error. -/
theorem load_and_filter_strict_threshold (t : RawTable) (thr : Int)
    (hW : "weight" ∈ t.cols) :
    ∃ out, load_and_filter t thr = .ok out ∧ out.cols = t.cols ∧
      (∀ r, r ∈ out.rows ↔ r ∈ t.rows ∧ thr < r.weight) ∧
      (∀ r ∈ t.rows, r.weight = thr → r ∉ out.rows) ∧
      ((∀ r ∈ t.rows, r.weight ≤ thr) → out.rows = []) := by
  unfold load_and_filter
  rw [if_pos hW]
  refine ⟨_, rfl, rfl, ?_, ?_, ?_⟩
  · intro r; simp [List.mem_filter]
  · intro r _ hw
    simp [List.mem_filter, hw]
  · intro h
    rw [List.filter_eq_nil_iff]
    intro r hr
    simpa using h r hr

/-- Witness for C4 at a concrete table and threshold. -/
theorem load_and_filter_strict_threshold_witness :
    "weight" ∈ tGood.cols ∧
      ∃ out, load_and_filter tGood 500 = .ok out ∧ out.cols = tGood.cols ∧
        (∀ r, r ∈ out.rows ↔ r ∈ tGood.rows ∧ 500 < r.weight) ∧
        (∀ r ∈ tGood.rows, r.weight = 500 → r ∉ out.rows) ∧
        ((∀ r ∈ tGood.rows, r.weight ≤ 500) → out.rows = []) :=
  ⟨by decide, load_and_filter_strict_threshold tGood 500 (by decide)⟩

/-! ## C10: the csv content does not depend on the layout stage -/

/-- **C10**: for a fixed input table, threshold and label flag, the csv
writes of the run (path and full text content) are identical across any two
layout engines — the layout/rendering stage is the only non-deterministic
one and the centrality csv does not depend on it; the run's error outcome
agrees as well.  Two runs with the same layout engine are the special case
`L₁ = L₂`. -/
theorem csv_independent_of_layout (L₁ L₂ : Graph → Layout) (t : RawTable)
    (thr : Int) (labels : LabelFlag) :
    csvOutputs (runPipeline L₁ t thr labels) = csvOutputs (runPipeline L₂ t thr labels) ∧
    (runPipeline L₁ t thr labels).2 = (runPipeline L₂ t thr labels).2 := by
  unfold runPipeline network_viz
  cases hl : load_and_filter t thr with
  | error e => exact ⟨rfl, rfl⟩
  | ok filtered =>
    dsimp only
    cases hg : from_pandas_edgelist filtered with
    | error e => exact ⟨rfl, rfl⟩
    | ok G =>
      dsimp only
      cases hc : calc_centrality G with
      | error e => exact ⟨by simp [csvOutputs], rfl⟩
      | ok tab => exact ⟨by simp [csvOutputs], rfl⟩

/-! ## C1: the all-below-threshold scenario -/

/-- **C1** (amended): when every row's weight is at most the threshold, the
run does NOT stop before writing files: `network_viz` saves the (empty)
visualization image first, and the failure — networkx's "cannot compute
centrality for the null graph" (`NetworkXPointlessConcept`), raised by
`nx.eigenvector_centrality`; the script has no `EmptyGraphError` — happens
afterwards, inside `calc_centrality`, so the image file is created and the
centrality csv is not. -/
theorem below_threshold_writes_viz_then_null_graph_failure
    (L : Graph → Layout) (t : RawTable) (thr : Int) (labels : LabelFlag)
    (hA : "nodeA" ∈ t.cols) (hB : "nodeB" ∈ t.cols) (hW : "weight" ∈ t.cols)
    (hle : ∀ r ∈ t.rows, r.weight ≤ thr) :
    (runPipeline L t thr labels).1.map FileWrite.path = [viz_filename labels] ∧
    (runPipeline L t thr labels).2 = some .pointlessConcept := by
  have hfil : t.rows.filter (fun r => decide (thr < r.weight)) = [] := by
    rw [List.filter_eq_nil_iff]
    intro r hr
    simpa using hle r hr
  have hload : load_and_filter t thr = .ok ⟨t.cols, []⟩ := by
    unfold load_and_filter
    rw [if_pos hW, hfil]
  have hviz : from_pandas_edgelist (⟨t.cols, []⟩ : RawTable) = .ok (⟨[], []⟩ : Graph) := by
    unfold from_pandas_edgelist
    rw [if_pos hA, if_pos hB, if_pos hW]
    rfl
  have hcalc : calc_centrality (⟨[], []⟩ : Graph) = .error .pointlessConcept := rfl
  unfold runPipeline network_viz
  rw [hload]
  dsimp only
  rw [hviz]
  dsimp only
  rw [hcalc]
  exact ⟨rfl, rfl⟩

/-- Witness for C1 at a concrete below-threshold table. -/
theorem below_threshold_writes_viz_then_null_graph_failure_witness :
    (∀ r ∈ tBelow.rows, r.weight ≤ 500) ∧
    (runPipeline L0 tBelow 500 none).1.map FileWrite.path = [viz_filename none] ∧
    (runPipeline L0 tBelow 500 none).2 = some .pointlessConcept :=
  ⟨by decide, below_threshold_writes_viz_then_null_graph_failure L0 tBelow 500 none
    (by decide) (by decide) (by decide) (by decide)⟩

/-- Counterexample to C1 as stated: on a table whose only row is below the
threshold, the run does create an output file (the visualization image) and
the error raised is networkx's null-graph error, not an `EmptyGraphError`
raised before any file write. -/
theorem below_threshold_creates_viz_file :
    (runPipeline L0 tBelow 500 none).1.map FileWrite.path = ["../viz/network.png"] ∧
    (runPipeline L0 tBelow 500 none).1 ≠ [] ∧
    (runPipeline L0 tBelow 500 none).2 = some .pointlessConcept := by decide

/-! ## C2: no-partial-success -/

/-- **C2** (amended): the visualization is always written strictly before
centrality computation, so the run has a partial-success outcome: when the
run succeeds both the image and the csv exist, but when centrality fails
the already-written image file is left behind (only a failure before
`network_viz` finishes leaves no files). -/
theorem run_outcome_structure (L : Graph → Layout) (t : RawTable) (thr : Int)
    (labels : LabelFlag) :
    ((runPipeline L t thr labels).2 = none →
      (runPipeline L t thr labels).1.map FileWrite.path = [viz_filename labels, csvPath]) ∧
    (∀ e, (runPipeline L t thr labels).2 = some e →
      (runPipeline L t thr labels).1 = [] ∨
      (runPipeline L t thr labels).1.map FileWrite.path = [viz_filename labels]) := by
  unfold runPipeline network_viz
  cases hl : load_and_filter t thr with
  | error e => exact ⟨fun h => by simp at h, fun e' _ => Or.inl rfl⟩
  | ok filtered =>
    dsimp only
    cases hg : from_pandas_edgelist filtered with
    | error e => exact ⟨fun h => by simp at h, fun e' _ => Or.inl rfl⟩
    | ok G =>
      dsimp only
      cases hc : calc_centrality G with
      | error e => exact ⟨fun h => by simp at h, fun e' _ => Or.inr rfl⟩
      | ok tab => exact ⟨fun _ => rfl, fun e' he' => by simp at he'⟩

/-- Witness for C2's implications at a concrete successful run. -/
theorem run_outcome_structure_witness :
    (runPipeline L0 tGood 500 none).2 = none ∧
    (runPipeline L0 tGood 500 none).1.map FileWrite.path = [viz_filename none, csvPath] :=
  ⟨by decide, (run_outcome_structure L0 tGood 500 none).1 (by decide)⟩

/-- Counterexample to C2 as stated: a run that fails in centrality
computation (null-graph failure of eigenvector centrality) after having
produced the visualization file — a partial-success outcome. -/
theorem centrality_failure_leaves_viz_file :
    (runPipeline L0 tBelow2 500 none).2 ≠ none ∧
    (runPipeline L0 tBelow2 500 none).1.map FileWrite.path = ["../viz/network.png"] := by decide

/-! ## C9: missing required columns -/

/-- **C9** (amended): there is no `DataFormatError`; missing columns surface
as `KeyError`s, and only a missing `weight` column makes *loading* fail.
With `weight` present but `nodeA` (or `nodeB`) absent, `load_and_filter`
succeeds and the run fails later, at graph construction inside
`network_viz` (before any file write). -/
theorem missing_column_failure_points (L : Graph → Layout) (t : RawTable)
    (thr : Int) (labels : LabelFlag) :
    ("weight" ∉ t.cols →
      load_and_filter t thr = .error (.keyError "weight") ∧
      runPipeline L t thr labels = ([], some (.keyError "weight"))) ∧
    ("weight" ∈ t.cols → "nodeA" ∉ t.cols →
      (∃ out, load_and_filter t thr = .ok out) ∧
      runPipeline L t thr labels = ([], some (.keyError "nodeA"))) ∧
    ("weight" ∈ t.cols → "nodeA" ∈ t.cols → "nodeB" ∉ t.cols →
      runPipeline L t thr labels = ([], some (.keyError "nodeB"))) := by
  refine ⟨fun hw => ?_, fun hw ha => ?_, fun hw ha hb => ?_⟩
  · constructor <;>
      simp [runPipeline, load_and_filter, network_viz, from_pandas_edgelist, hw]
  · constructor <;>
      simp [runPipeline, load_and_filter, network_viz, from_pandas_edgelist, hw, ha]
  · simp [runPipeline, load_and_filter, network_viz, from_pandas_edgelist, hw, ha, hb]

/-- Witness for C9's implications: a table with only `nodeB` and `weight`
columns loads fine and then fails at graph construction. -/
theorem missing_column_failure_points_witness :
    "weight" ∈ tNoA.cols ∧ "nodeA" ∉ tNoA.cols ∧
    ((∃ out, load_and_filter tNoA 500 = .ok out) ∧
      runPipeline L0 tNoA 500 none = ([], some (.keyError "nodeA"))) :=
  ⟨by decide, by decide,
    (missing_column_failure_points L0 tNoA 500 none).2.1 (by decide) (by decide)⟩

/-- Counterexample to C9 as stated: an input file lacking the required
`nodeA` column for which loading succeeds (the failure only comes later,
in `network_viz`, and is a `KeyError`, not a `DataFormatError`). -/
theorem missing_nodeA_loads_ok :
    load_and_filter tNoA 500 = .ok tNoA ∧
    runPipeline L0 tNoA 500 none = ([], some (.keyError "nodeA")) := by decide

/-! ## C5: the `include_labels` flag -/

/-- **C5**: labels are drawn and the output file is named
`network_w_labels.png` exactly when the `include_labels` value is the
literal string `"True"`; any other value — including the lowercase string
`"true"` and the boolean argparse default (`none` in the model) — produces
the unlabeled rendering saved as `network.png`. -/
theorem include_labels_literal_True (L : Graph → Layout) (t : RawTable)
    (labels : LabelFlag) (hA : "nodeA" ∈ t.cols) (hB : "nodeB" ∈ t.cols)
    (hW : "weight" ∈ t.cols) :
    ∃ w G, network_viz L t labels = .ok (w, G) ∧
      (w.path = "../viz/network_w_labels.png" ↔ labels = some "True") ∧
      (w.content = .image G (L G) true ↔ labels = some "True") ∧
      (labels ≠ some "True" →
        w.path = "../viz/network.png" ∧ w.content = .image G (L G) false) := by
  have hg : from_pandas_edgelist t = .ok (buildGraph t.rows) := by
    unfold from_pandas_edgelist
    rw [if_pos hA, if_pos hB, if_pos hW]
  have hon : labelsOn labels = true ↔ labels = some "True" := by
    cases labels with
    | none => simp [labelsOn]
    | some s => simp [labelsOn]
  have hne : ("../viz/network.png" : String) ≠ "../viz/network_w_labels.png" := by
    decide
  refine ⟨⟨viz_filename labels,
      .image (buildGraph t.rows) (L (buildGraph t.rows)) (labelsOn labels)⟩,
    buildGraph t.rows, ?_, ?_, ?_, ?_⟩
  · unfold network_viz
    rw [hg]
  · by_cases hT : labels = some "True"
    · simp [viz_filename, labelsOn, hT]
    · have h0 : labelsOn labels = false := by
        cases hcase : labelsOn labels
        · rfl
        · exact absurd (hon.mp hcase) hT
      simp [viz_filename, h0, hT, hne]
  · by_cases hT : labels = some "True"
    · simp [labelsOn, hT]
    · have h0 : labelsOn labels = false := by
        cases hcase : labelsOn labels
        · rfl
        · exact absurd (hon.mp hcase) hT
      simp [h0, hT]
  · intro hT
    have h0 : labelsOn labels = false := by
      cases hcase : labelsOn labels
      · rfl
      · exact absurd (hon.mp hcase) hT
    exact ⟨by simp [viz_filename, h0], by simp [h0]⟩

/-- Witness for C5 at the lowercase string `"true"`: the hypotheses hold
for the concrete table and the conclusion instantiates to the unlabeled
rendering. -/
theorem include_labels_literal_True_witness :
    "nodeA" ∈ tGood.cols ∧
    (∃ w G, network_viz L0 tGood (some "true") = .ok (w, G) ∧
      (w.path = "../viz/network_w_labels.png" ↔ (some "true" : LabelFlag) = some "True") ∧
      (w.content = .image G (L0 G) true ↔ (some "true" : LabelFlag) = some "True") ∧
      ((some "true" : LabelFlag) ≠ some "True" →
        w.path = "../viz/network.png" ∧ w.content = .image G (L0 G) false)) :=
  ⟨by decide, include_labels_literal_True L0 tGood (some "true")
    (by decide) (by decide) (by decide)⟩

/-! ## C6: the degree-centrality formula -/

/-- Looking up a key in a keyed `map` over a node list finds the first hit. -/
theorem find?_nodes_pair {β : Type} (f : String → β) (nodes : List String)
    (v : String) (hv : v ∈ nodes) :
    (nodes.map (fun n => (n, f n))).find? (fun p => p.1 == v) = some (v, f v) := by
  induction nodes with
  | nil => cases hv
  | cons a l ih =>
    by_cases hav : a = v
    · subst hav
      rw [List.map_cons, List.find?_cons_of_pos _ (by simp)]
    · rcases List.mem_cons.mp hv with h' | h'
      · exact absurd h'.symm hav
      · rw [List.map_cons, List.find?_cons_of_neg _ (by simp [hav])]
        exact ih h'

/-- **C6** (amended): on every built graph with `n ≥ 2` nodes, the degree
centrality reported for a node is its networkx degree divided by `n - 1`,
and a two-node one-edge graph yields 1 for both nodes; but for a graph with
a single node (reachable only through a self-loop row) networkx's
`degree_centrality` returns 1 — `{n: 1 for n in G}` — not 0. -/
theorem degree_centrality_formula (rows : List Row) :
    (2 ≤ (buildGraph rows).nodes.length →
      ∀ v ∈ (buildGraph rows).nodes,
        (degree_centrality (buildGraph rows)).find? (fun p => p.1 == v) =
          some (v, (degree (buildGraph rows) v : Rat) /
            (((buildGraph rows).nodes.length : Rat) - 1))) ∧
    ((buildGraph rows).nodes.length ≤ 1 →
      degree_centrality (buildGraph rows) =
        (buildGraph rows).nodes.map (fun v => (v, 1))) ∧
    degree_centrality (buildGraph [⟨"A", "B", 600⟩]) = [("A", 1), ("B", 1)] := by
  refine ⟨?_, ?_, ?_⟩
  · intro h2 v hv
    unfold degree_centrality
    rw [if_neg (by omega)]
    exact find?_nodes_pair _ _ v hv
  · intro h1
    unfold degree_centrality
    rw [if_pos h1]
  · decide

/-- Witness for C6 on the two-node graph built from one 600-weight row. -/
theorem degree_centrality_formula_witness :
    2 ≤ (buildGraph [⟨"A", "B", 600⟩]).nodes.length ∧
    "A" ∈ (buildGraph [⟨"A", "B", 600⟩]).nodes ∧
    (degree_centrality (buildGraph [⟨"A", "B", 600⟩])).find? (fun p => p.1 == "A") =
      some ("A", (degree (buildGraph [⟨"A", "B", 600⟩]) "A" : Rat) /
        (((buildGraph [⟨"A", "B", 600⟩]).nodes.length : Rat) - 1)) :=
  ⟨by decide, by decide,
    (degree_centrality_formula [⟨"A", "B", 600⟩]).1 (by decide) "A" (by decide)⟩

/-- Counterexample to C6 as stated: the single-node graph (built from a
self-loop row) gets degree centrality 1 from `nx.degree_centrality`, not
the claimed 0. -/
theorem single_node_degree_centrality_is_one :
    degree_centrality (buildGraph [⟨"A", "A", 600⟩]) = [("A", 1)] ∧
    ((1 : Rat) = 0 → False) := by decide

/-! ## C8: graph construction is deterministic, one edge per unordered
pair, last-seen weight wins -/

/-- The `weight` attribute the built graph stores for the unordered pair
`{u, v}`, if such an edge exists. -/
def edgeWeight (g : Graph) (u v : String) : Option Int :=
  (g.edges.find? (fun e => decide (EdgeOn e u v))).map (fun e => e.2.2)

/-- The claim's duplicate policy, read off the relation directly (this is
the spec-side definition the graph builder is compared against): the weight
of the last row carrying the unordered pair `{u, v}`, if any. -/
def specLastWeight (rows : List Row) (u v : String) : Option Int :=
  rows.foldl (fun acc r => if RowOn r u v then some r.weight else acc) none

/-- No two stored edges join the same unordered endpoint pair. -/
def OnePerPair (g : Graph) : Prop :=
  List.Pairwise (fun e f => ¬ EdgeOn f e.1 e.2.1) g.edges

theorem edgeOn_comm (e : String × String × Int) (u v : String) :
    EdgeOn e u v ↔ EdgeOn e v u := by
  constructor <;> rintro (⟨h1, h2⟩ | ⟨h1, h2⟩)
  · exact Or.inr ⟨h1, h2⟩
  · exact Or.inl ⟨h1, h2⟩
  · exact Or.inr ⟨h1, h2⟩
  · exact Or.inl ⟨h1, h2⟩

/-- If `(a, b)` and `(u, v)` denote the same unordered pair, the predicates
"joins `{a, b}`" and "joins `{u, v}`" agree. -/
theorem edgeOn_of_pair_eq {a b u v : String} {w : Int}
    (h : EdgeOn (a, b, w) u v) (e : String × String × Int) :
    EdgeOn e a b ↔ EdgeOn e u v := by
  rcases h with ⟨h1, h2⟩ | ⟨h1, h2⟩
  · rw [show a = u from h1, show b = v from h2]
  · rw [show a = v from h1, show b = u from h2]
    exact edgeOn_comm e v u

/-- An edge joining both `{a, b}` and `{u, v}` forces the two pairs equal. -/
theorem pair_eq_of_common (e : String × String × Int) {a b u v : String}
    (w : Int) (h1 : EdgeOn e a b) (h2 : EdgeOn e u v) : EdgeOn (a, b, w) u v := by
  rcases h1 with ⟨x1, x2⟩ | ⟨x1, x2⟩ <;> rcases h2 with ⟨y1, y2⟩ | ⟨y1, y2⟩
  · exact Or.inl ⟨x1.symm.trans y1, x2.symm.trans y2⟩
  · exact Or.inr ⟨x1.symm.trans y1, x2.symm.trans y2⟩
  · exact Or.inr ⟨x2.symm.trans y2, x1.symm.trans y1⟩
  · exact Or.inl ⟨x2.symm.trans y2, x1.symm.trans y1⟩

/-- Overwriting the weight attribute preserves both endpoints. -/
theorem replace_ends (a b : String) (w : Int) (e : String × String × Int) :
    (if EdgeOn e a b then (e.1, e.2.1, w) else e).1 = e.1 ∧
    (if EdgeOn e a b then (e.1, e.2.1, w) else e).2.1 = e.2.1 := by
  split <;> exact ⟨rfl, rfl⟩

/-- Overwriting the weight attribute preserves which pair an edge joins. -/
theorem edgeOn_replace (a b : String) (w : Int) (u v : String)
    (e : String × String × Int) :
    EdgeOn (if EdgeOn e a b then (e.1, e.2.1, w) else e) u v ↔ EdgeOn e u v := by
  split <;> exact Iff.rfl

/-- `find?` commutes with a map that preserves the predicate. -/
theorem find?_map_pres {α : Type} (p : α → Bool) (f : α → α)
    (hp : ∀ x, p (f x) = p x) (l : List α) :
    (l.map f).find? p = (l.find? p).map f := by
  induction l with
  | nil => rfl
  | cons x l ih =>
    by_cases h : p x = true
    · rw [List.map_cons, List.find?_cons_of_pos _ (by rw [hp]; exact h),
        List.find?_cons_of_pos _ h]
      rfl
    · rw [List.map_cons, List.find?_cons_of_neg _ (by rw [hp]; exact h),
        List.find?_cons_of_neg _ h]
      exact ih

/-- The key step: one `add_edge` updates the stored weight of exactly the
unordered pair it mentions and leaves every other pair's weight alone. -/
theorem edgeWeight_addEdge (g : Graph) (a b : String) (w : Int) (u v : String) :
    edgeWeight (addEdge g a b w) u v =
      if EdgeOn (a, b, w) u v then some w else edgeWeight g u v := by
  unfold edgeWeight addEdge
  dsimp only
  by_cases hab : EdgeOn (a, b, w) u v
  · rw [if_pos hab]
    have hcongr := edgeOn_of_pair_eq hab
    by_cases hany : g.edges.any (fun e => decide (EdgeOn e a b)) = true
    · rw [if_pos hany]
      rw [find?_map_pres _ _ (fun x : String × String × Int =>
        decide_eq_decide.mpr (edgeOn_replace a b w u v x))]
      obtain ⟨e₀, he₀, hpe₀⟩ := List.any_eq_true.mp hany
      have hsome : (g.edges.find? (fun e => decide (EdgeOn e u v))).isSome := by
        rw [List.find?_isSome]
        refine ⟨e₀, he₀, ?_⟩
        rw [decide_eq_true_iff] at hpe₀ ⊢
        exact (hcongr e₀).mp hpe₀
      match hf : g.edges.find? (fun e => decide (EdgeOn e u v)) with
      | none => rw [hf] at hsome; simp at hsome
      | some e₁ =>
        have hp₁ : EdgeOn e₁ u v := by
          have := List.find?_some hf
          rwa [decide_eq_true_iff] at this
        have hab₁ : EdgeOn e₁ a b := (hcongr e₁).mpr hp₁
        simp [hab₁]
    · rw [if_neg hany, List.find?_append]
      have hnone : g.edges.find? (fun e => decide (EdgeOn e u v)) = none := by
        rw [List.find?_eq_none]
        intro x hx hcontra
        apply hany
        rw [List.any_eq_true]
        refine ⟨x, hx, ?_⟩
        rw [decide_eq_true_iff] at hcontra ⊢
        exact (hcongr x).mpr hcontra
      rw [hnone]
      simp [hab]
  · rw [if_neg hab]
    by_cases hany : g.edges.any (fun e => decide (EdgeOn e a b)) = true
    · rw [if_pos hany]
      rw [find?_map_pres _ _ (fun x : String × String × Int =>
        decide_eq_decide.mpr (edgeOn_replace a b w u v x))]
      match hf : g.edges.find? (fun e => decide (EdgeOn e u v)) with
      | none => rfl
      | some e₁ =>
        have hp₁ : EdgeOn e₁ u v := by
          have := List.find?_some hf
          rwa [decide_eq_true_iff] at this
        have hne₁ : ¬ EdgeOn e₁ a b := fun hcon =>
          hab (pair_eq_of_common e₁ w hcon hp₁)
        simp [hne₁]
    · rw [if_neg hany, List.find?_append]
      have h1 : List.find? (fun e => decide (EdgeOn e u v)) [(a, b, w)] = none := by
        simp [hab]
      rw [h1]
      simp

/-- Folding the rows through `add_edge` computes, for every unordered pair,
the last-seen weight on top of whatever the starting graph stored. -/
theorem edgeWeight_fold (rows : List Row) : ∀ (g : Graph) (u v : String),
    edgeWeight (rows.foldl (fun g r => addEdge g r.nodeA r.nodeB r.weight) g) u v =
      rows.foldl (fun acc r => if RowOn r u v then some r.weight else acc)
        (edgeWeight g u v) := by
  induction rows with
  | nil => intro g u v; rfl
  | cons r rows ih =>
    intro g u v
    rw [List.foldl_cons, List.foldl_cons, ih, edgeWeight_addEdge]

theorem onePerPair_addEdge (g : Graph) (a b : String) (w : Int)
    (h : OnePerPair g) : OnePerPair (addEdge g a b w) := by
  unfold OnePerPair addEdge at *
  dsimp only
  split
  · refine List.Pairwise.map _ ?_ h
    intro e f hef hcon
    apply hef
    have he := replace_ends a b w e
    rw [he.1, he.2] at hcon
    exact (edgeOn_replace a b w e.1 e.2.1 f).mp hcon
  · rename_i hany
    rw [List.pairwise_append]
    refine ⟨h, by simp, ?_⟩
    intro e he f hf
    rw [List.mem_singleton] at hf
    subst hf
    intro hcon
    apply hany
    rw [List.any_eq_true]
    refine ⟨e, he, ?_⟩
    rw [decide_eq_true_iff]
    rcases hcon with ⟨h1, h2⟩ | ⟨h1, h2⟩
    · exact Or.inl ⟨h1.symm, h2.symm⟩
    · exact Or.inr ⟨h2.symm, h1.symm⟩

theorem onePerPair_fold (rows : List Row) : ∀ (g : Graph), OnePerPair g →
    OnePerPair (rows.foldl (fun g r => addEdge g r.nodeA r.nodeB r.weight) g) := by
  induction rows with
  | nil => intro g h; exact h
  | cons r rows ih =>
    intro g h
    rw [List.foldl_cons]
    exact ih _ (onePerPair_addEdge _ _ _ _ h)

theorem lastWeight_fold_isSome (u v : String) (rows : List Row) :
    ∀ (acc : Option Int),
    ((rows.foldl (fun acc r => if RowOn r u v then some r.weight else acc)
        acc).isSome = true)
      ↔ acc.isSome = true ∨ ∃ r ∈ rows, RowOn r u v := by
  induction rows with
  | nil => intro acc; simp
  | cons r rows ih =>
    intro acc
    rw [List.foldl_cons, ih]
    by_cases h : RowOn r u v
    · simp [h]
    · simp [h]

/-- **C8**: graph construction is deterministic in the relation's content:
the built graph stores at most one undirected edge per unordered endpoint
pair, an unordered pair has an edge exactly when some row carries it, and
the stored weight is the weight of the last row carrying that pair
(`specLastWeight`, the claim's last-seen-wins policy). -/
theorem buildGraph_one_edge_per_pair_last_weight_wins (rows : List Row)
    (u v : String) :
    OnePerPair (buildGraph rows) ∧
    edgeWeight (buildGraph rows) u v = specLastWeight rows u v ∧
    ((edgeWeight (buildGraph rows) u v).isSome = true ↔
      ∃ r ∈ rows, RowOn r u v) := by
  have h2 : edgeWeight (buildGraph rows) u v = specLastWeight rows u v := by
    unfold buildGraph specLastWeight
    have hempty : edgeWeight (⟨[], []⟩ : Graph) u v = none := rfl
    rw [edgeWeight_fold, hempty]
  refine ⟨onePerPair_fold rows ⟨[], []⟩ List.Pairwise.nil, h2, ?_⟩
  rw [h2]
  unfold specLastWeight
  exact (lastWeight_fold_isSome u v rows none).trans (by simp)

/-! ## C3: join completeness of the reconciled centrality table -/

theorem addNode_nodup (g : Graph) (n : String) (h : g.nodes.Nodup) :
    (addNode g n).nodes.Nodup := by
  unfold addNode
  split
  · exact h
  · rename_i hn
    rw [List.nodup_append]
    exact ⟨h, by simp, fun a ha hb => hn (List.mem_singleton.mp hb ▸ ha)⟩

theorem buildGraph_nodes_nodup (rows : List Row) :
    (buildGraph rows).nodes.Nodup := by
  unfold buildGraph
  have haux : ∀ (g : Graph), g.nodes.Nodup →
      (rows.foldl (fun g r => addEdge g r.nodeA r.nodeB r.weight) g).nodes.Nodup := by
    induction rows with
    | nil => intro g h; exact h
    | cons r rows ih =>
      intro g h
      rw [List.foldl_cons]
      exact ih _ (addNode_nodup _ _ (addNode_nodup _ _ h))
  exact haux ⟨[], []⟩ (by simp)

theorem map_fst_keyed {β : Type} (f : String → β) (nodes : List String) :
    (nodes.map (fun n => (n, f n))).map Prod.fst = nodes := by
  induction nodes with
  | nil => rfl
  | cons a l ih => simp [ih]

/-- `nx.degree_centrality` returns one entry per node, in node order. -/
theorem degree_centrality_keys (g : Graph) :
    (degree_centrality g).map Prod.fst = g.nodes := by
  unfold degree_centrality
  split
  · exact map_fst_keyed _ _
  · exact map_fst_keyed _ _

/-- `nx.betweenness_centrality` returns one entry per node, in node order. -/
theorem betweenness_centrality_keys (g : Graph) :
    (betweenness_centrality g).map Prod.fst = g.nodes := by
  unfold betweenness_centrality
  dsimp only
  split
  · exact map_fst_keyed _ _
  · exact map_fst_keyed _ _

theorem eigNormalize_keys (y : List (String × Rat)) :
    (eigNormalize y).map Prod.fst = y.map Prod.fst := by
  unfold eigNormalize
  dsimp only
  rw [List.map_map]
  rfl

theorem eigLoop_keys (g : Graph) : ∀ (fuel : Nat) (x r : List (String × Rat)),
    eigLoop g fuel x = some r → r.map Prod.fst = g.nodes := by
  intro fuel
  induction fuel with
  | zero => intro x r h; simp [eigLoop] at h
  | succ n ih =>
    intro x r h
    rw [eigLoop] at h
    split at h
    · cases h
      rw [eigNormalize_keys]
      unfold eigStep
      exact map_fst_keyed _ _
    · exact ih _ _ h

/-- When `nx.eigenvector_centrality` converges it returns one score per
node, in node order. -/
theorem eigenvector_centrality_keys (g : Graph) (x : List (String × Rat))
    (h : eigenvector_centrality g = .ok x) : x.map Prod.fst = g.nodes := by
  unfold eigenvector_centrality at h
  split at h
  · cases h
  · dsimp only at h
    split at h
    · rename_i x' heq
      cases h
      exact eigLoop_keys g 100 _ _ heq
    · cases h

theorem pdMerge_cons {α β : Type} (a : String × α) (l : List (String × α))
    (r : List (String × β)) :
    pdMerge (a :: l) r =
      (r.filter (fun b => b.1 == a.1)).map (fun b => (a.1, a.2, b.2)) ++
        pdMerge l r := rfl

/-- In a frame whose keys are distinct, filtering by a present key yields a
single row. -/
theorem filter_key_singleton {β : Type} (r : List (String × β)) (k : String)
    (hnd : (r.map Prod.fst).Nodup) (hk : k ∈ r.map Prod.fst) :
    ∃ w, r.filter (fun b => b.1 == k) = [(k, w)] := by
  induction r with
  | nil => simp at hk
  | cons b r ih =>
    rw [List.map_cons, List.nodup_cons] at hnd
    by_cases hbk : b.1 = k
    · refine ⟨b.2, ?_⟩
      rw [List.filter_cons_of_pos (by simp [hbk])]
      have hnil : r.filter (fun b' => b'.1 == k) = [] := by
        rw [List.filter_eq_nil_iff]
        intro b' hb' hcon
        rw [beq_iff_eq] at hcon
        refine hnd.1 ?_
        rw [hbk]
        exact hcon ▸ List.mem_map_of_mem Prod.fst hb'
      rw [hnil]
      simp [Prod.ext_iff, hbk]
    · rw [List.filter_cons_of_neg (by simp [hbk])]
      rcases List.mem_cons.mp hk with h' | h'
      · exact absurd h'.symm hbk
      · exact ih hnd.2 h'

/-- `pd.merge` (inner join) on uniquely-keyed right frames keeps exactly the
left frame's key column. -/
theorem pdMerge_keys {α β : Type} (l : List (String × α)) (r : List (String × β))
    (hnd : (r.map Prod.fst).Nodup) (hsub : ∀ a ∈ l, a.1 ∈ r.map Prod.fst) :
    (pdMerge l r).map Prod.fst = l.map Prod.fst := by
  induction l with
  | nil => rfl
  | cons a l ih =>
    obtain ⟨w, hw⟩ := filter_key_singleton r a.1 hnd (hsub a (List.mem_cons_self _ _))
    have ih' := ih (fun a' ha' => hsub a' (List.mem_cons_of_mem _ ha'))
    simp [pdMerge_cons, hw, ih']

/-- **C3**: for every input producing a graph on which `calc_centrality`
succeeds, the reconciled table has exactly one row per node of the built
graph: its key column equals the node list (no dropped nodes and no extra
rows), and its row count equals the node count. -/
theorem calc_centrality_join_complete (rows : List Row) (tab : CTable)
    (h : calc_centrality (buildGraph rows) = .ok tab) :
    tab.map Prod.fst = (buildGraph rows).nodes ∧
    tab.length = (buildGraph rows).nodes.length := by
  have hnd : (buildGraph rows).nodes.Nodup := buildGraph_nodes_nodup rows
  have hd := degree_centrality_keys (buildGraph rows)
  have hb := betweenness_centrality_keys (buildGraph rows)
  unfold calc_centrality at h
  dsimp only at h
  split at h
  · cases h
  · rename_i ev hev
    cases h
    have he := eigenvector_centrality_keys _ _ hev
    have h1 : (pdMerge (degree_centrality (buildGraph rows))
        (betweenness_centrality (buildGraph rows))).map Prod.fst =
        (degree_centrality (buildGraph rows)).map Prod.fst := by
      apply pdMerge_keys
      · rw [hb]; exact hnd
      · intro a ha
        rw [hb, ← hd]
        exact List.mem_map_of_mem Prod.fst ha
    have hsub2 : ∀ a ∈ pdMerge (degree_centrality (buildGraph rows))
        (betweenness_centrality (buildGraph rows)), a.1 ∈ ev.map Prod.fst := by
      intro a ha
      rw [he]
      have hmem := List.mem_map_of_mem Prod.fst ha
      rw [h1, hd] at hmem
      exact hmem
    have h2 : (pdMerge (pdMerge (degree_centrality (buildGraph rows))
        (betweenness_centrality (buildGraph rows))) ev).map Prod.fst =
        (buildGraph rows).nodes := by
      rw [pdMerge_keys _ _ (by rw [he]; exact hnd) hsub2, h1, hd]
    exact ⟨h2, by rw [← h2, List.length_map]⟩

/-- Witness for C3 on the concrete two-node run (the table computed by the
model, with the eigenvector scores from the converged power iteration). -/
theorem calc_centrality_join_complete_witness :
    calc_centrality (buildGraph [⟨"A", "B", 600⟩]) =
      .ok [("A", ((1 : Rat), (0 : Rat)), (1 : Rat)/2),
           ("B", ((1 : Rat), (0 : Rat)), (1 : Rat)/2)] ∧
    [("A", ((1 : Rat), (0 : Rat)), (1 : Rat)/2),
     ("B", ((1 : Rat), (0 : Rat)), (1 : Rat)/2)].map Prod.fst =
      (buildGraph [⟨"A", "B", 600⟩]).nodes :=
  ⟨by decide, (calc_centrality_join_complete [⟨"A", "B", 600⟩] _ (by decide)).1⟩

/-! ## C7: degree-centrality values and self-loops -/

/-- Every stored edge's endpoints are members of the node list. -/
def EndsMem (g : Graph) : Prop :=
  ∀ e ∈ g.edges, e.1 ∈ g.nodes ∧ e.2.1 ∈ g.nodes

/-- No stored edge is a self-loop. -/
def NoLoops (g : Graph) : Prop := ∀ e ∈ g.edges, e.1 ≠ e.2.1

theorem mem_addNode_of_mem (g : Graph) (n m : String) (h : m ∈ g.nodes) :
    m ∈ (addNode g n).nodes := by
  unfold addNode
  split
  · exact h
  · exact List.mem_append_left _ h

theorem mem_addNode_self (g : Graph) (n : String) : n ∈ (addNode g n).nodes := by
  unfold addNode
  split
  · assumption
  · exact List.mem_append_right _ (by simp)

theorem endsMem_addEdge (g : Graph) (a b : String) (w : Int) (h : EndsMem g) :
    EndsMem (addEdge g a b w) := by
  unfold EndsMem addEdge at *
  dsimp only
  intro e he
  have hmono : ∀ m, m ∈ g.nodes → m ∈ (addNode (addNode g a) b).nodes :=
    fun m hm => mem_addNode_of_mem _ _ _ (mem_addNode_of_mem _ _ _ hm)
  split at he
  · obtain ⟨e₀, he₀, rfl⟩ := List.mem_map.mp he
    have h₀ := h e₀ he₀
    have hr := replace_ends a b w e₀
    rw [hr.1, hr.2]
    exact ⟨hmono _ h₀.1, hmono _ h₀.2⟩
  · rcases List.mem_append.mp he with he' | he'
    · have h₀ := h e he'
      exact ⟨hmono _ h₀.1, hmono _ h₀.2⟩
    · rw [List.mem_singleton] at he'
      subst he'
      exact ⟨mem_addNode_of_mem _ _ _ (mem_addNode_self g a), mem_addNode_self _ b⟩

theorem noLoops_addEdge (g : Graph) (a b : String) (w : Int) (hab : a ≠ b)
    (h : NoLoops g) : NoLoops (addEdge g a b w) := by
  unfold NoLoops addEdge at *
  dsimp only
  intro e he
  split at he
  · obtain ⟨e₀, he₀, rfl⟩ := List.mem_map.mp he
    have hr := replace_ends a b w e₀
    rw [hr.1, hr.2]
    exact h e₀ he₀
  · rcases List.mem_append.mp he with he' | he'
    · exact h e he'
    · rw [List.mem_singleton] at he'
      subst he'
      exact hab

theorem endsMem_buildGraph (rows : List Row) : EndsMem (buildGraph rows) := by
  unfold buildGraph
  have haux : ∀ (g : Graph), EndsMem g →
      EndsMem (rows.foldl (fun g r => addEdge g r.nodeA r.nodeB r.weight) g) := by
    induction rows with
    | nil => exact fun g h => h
    | cons r rows ih =>
      intro g h
      rw [List.foldl_cons]
      exact ih _ (endsMem_addEdge _ _ _ _ h)
  exact haux ⟨[], []⟩ (fun e he => absurd he (List.not_mem_nil e))

theorem noLoops_buildGraph (rows : List Row)
    (hs : ∀ r ∈ rows, r.nodeA ≠ r.nodeB) : NoLoops (buildGraph rows) := by
  unfold buildGraph
  have haux : ∀ (rs : List Row), (∀ r ∈ rs, r.nodeA ≠ r.nodeB) →
      ∀ (g : Graph), NoLoops g →
      NoLoops (rs.foldl (fun g r => addEdge g r.nodeA r.nodeB r.weight) g) := by
    intro rs
    induction rs with
    | nil => exact fun _ g h => h
    | cons r rs ih =>
      intro hrs g h
      rw [List.foldl_cons]
      exact ih (fun r' hr' => hrs r' (List.mem_cons_of_mem _ hr'))
        _ (noLoops_addEdge _ _ _ _ (hrs r (List.mem_cons_self _ _)) h)
  exact haux rows hs ⟨[], []⟩ (fun e he => absurd he (List.not_mem_nil e))

theorem degree_foldl (v : String) (l : List (String × String × Int)) : ∀ (a : Nat),
    l.foldl (fun d e =>
        d + (if e.1 = v then 1 else 0) + (if e.2.1 = v then 1 else 0)) a
      = a + (l.map (fun e =>
          (if e.1 = v then 1 else 0) + (if e.2.1 = v then 1 else 0))).sum := by
  induction l with
  | nil => intro a; simp
  | cons e l ih =>
    intro a
    rw [List.foldl_cons, ih, List.map_cons, List.sum_cons]
    omega

theorem sum_incident_eq_countP (v : String) (l : List (String × String × Int))
    (hnl : ∀ e ∈ l, e.1 ≠ e.2.1) :
    (l.map (fun e =>
        (if e.1 = v then 1 else 0) + (if e.2.1 = v then 1 else 0))).sum
      = l.countP (fun e => decide (e.1 = v ∨ e.2.1 = v)) := by
  induction l with
  | nil => rfl
  | cons e l ih =>
    rw [List.map_cons, List.sum_cons, List.countP_cons,
      ih (fun e' he' => hnl e' (List.mem_cons_of_mem _ he'))]
    have hne := hnl e (List.mem_cons_self _ _)
    by_cases h1 : e.1 = v <;> by_cases h2 : e.2.1 = v
    · exact absurd (h1.trans h2.symm) hne
    · simp [h1, h2]
      omega
    · simp [h1, h2]
      omega
    · simp [h1, h2]

/-- On a loop-free graph the networkx degree counts the incident edges. -/
theorem degree_eq_incident_count (g : Graph) (v : String) (hnl : NoLoops g) :
    degree g v =
      (g.edges.filter (fun e => decide (e.1 = v ∨ e.2.1 = v))).length := by
  unfold degree
  rw [degree_foldl, Nat.zero_add, sum_incident_eq_countP v _ hnl,
    List.countP_eq_length_filter]

theorem edgeOn_flip (e f : String × String × Int) (h : EdgeOn e f.1 f.2.1) :
    EdgeOn f e.1 e.2.1 := by
  rcases h with ⟨h1, h2⟩ | ⟨h1, h2⟩
  · exact Or.inl ⟨h1.symm, h2.symm⟩
  · exact Or.inr ⟨h2.symm, h1.symm⟩

/-- On a loop-free simple graph each node's degree is at most the number of
other nodes: distinct incident edges lead to distinct other endpoints. -/
theorem degree_le_pred_card (g : Graph) (v : String)
    (hnl : NoLoops g) (hem : EndsMem g) (hpp : OnePerPair g)
    (hv : v ∈ g.nodes) :
    degree g v + 1 ≤ g.nodes.length := by
  rw [degree_eq_incident_count g v hnl]
  have hsymm : Symmetric (fun e f : String × String × Int =>
      ¬ EdgeOn f e.1 e.2.1) := by
    intro e f hef hcon
    exact hef (edgeOn_flip e f hcon)
  have hincpw : List.Pairwise (fun e f => ¬ EdgeOn f e.1 e.2.1)
      (g.edges.filter (fun e => decide (e.1 = v ∨ e.2.1 = v))) :=
    List.Pairwise.sublist (List.filter_sublist _) hpp
  have hincnd : (g.edges.filter (fun e => decide (e.1 = v ∨ e.2.1 = v))).Nodup := by
    refine List.Pairwise.imp ?_ hincpw
    intro e f hef hcontra
    subst hcontra
    exact hef (Or.inl ⟨rfl, rfl⟩)
  have hothnd : ((g.edges.filter (fun e => decide (e.1 = v ∨ e.2.1 = v))).map
      (fun e => if e.1 = v then e.2.1 else e.1)).Nodup := by
    refine List.Nodup.map_on ?_ hincnd
    intro x hx y hy hxy
    have hxm := List.mem_filter.mp hx
    have hym := List.mem_filter.mp hy
    have hxc : x.1 = v ∨ x.2.1 = v := by
      have := hxm.2; rwa [decide_eq_true_iff] at this
    have hyc : y.1 = v ∨ y.2.1 = v := by
      have := hym.2; rwa [decide_eq_true_iff] at this
    by_contra hne
    have hR : ¬ EdgeOn y x.1 x.2.1 :=
      List.Pairwise.forall hsymm hincpw hx hy hne
    apply hR
    by_cases hx1 : x.1 = v <;> by_cases hy1 : y.1 = v
    · rw [if_pos hx1, if_pos hy1] at hxy
      exact Or.inl ⟨hy1.trans hx1.symm, hxy.symm⟩
    · rw [if_pos hx1, if_neg hy1] at hxy
      have hy2 : y.2.1 = v := hyc.resolve_left hy1
      exact Or.inr ⟨hxy.symm, hy2.trans hx1.symm⟩
    · rw [if_neg hx1, if_pos hy1] at hxy
      have hx2 : x.2.1 = v := hxc.resolve_left hx1
      exact Or.inr ⟨hy1.trans hx2.symm, hxy.symm⟩
    · rw [if_neg hx1, if_neg hy1] at hxy
      have hx2 : x.2.1 = v := hxc.resolve_left hx1
      have hy2 : y.2.1 = v := hyc.resolve_left hy1
      exact Or.inl ⟨hxy.symm, hy2.trans hx2.symm⟩
  have hsub : ∀ u ∈ (g.edges.filter (fun e => decide (e.1 = v ∨ e.2.1 = v))).map
      (fun e => if e.1 = v then e.2.1 else e.1),
      u ∈ g.nodes.filter (fun u => decide (¬ u = v)) := by
    intro u hu
    obtain ⟨e, he, rfl⟩ := List.mem_map.mp hu
    have hem' := List.mem_filter.mp he
    have hends := hem e hem'.1
    have hl := hnl e hem'.1
    rw [List.mem_filter]
    by_cases h1 : e.1 = v
    · rw [if_pos h1]
      refine ⟨hends.2, ?_⟩
      rw [decide_eq_true_iff]
      intro hc2
      exact hl (h1.trans hc2.symm)
    · rw [if_neg h1]
      exact ⟨hends.1, by rw [decide_eq_true_iff]; exact h1⟩
  have hlen1 : ((g.edges.filter (fun e => decide (e.1 = v ∨ e.2.1 = v))).map
      (fun e => if e.1 = v then e.2.1 else e.1)).length =
      (g.edges.filter (fun e => decide (e.1 = v ∨ e.2.1 = v))).length :=
    List.length_map _ _
  have hlen2 : ((g.edges.filter (fun e => decide (e.1 = v ∨ e.2.1 = v))).map
      (fun e => if e.1 = v then e.2.1 else e.1)).length ≤
      (g.nodes.filter (fun u => decide (¬ u = v))).length := by
    calc ((g.edges.filter (fun e => decide (e.1 = v ∨ e.2.1 = v))).map
          (fun e => if e.1 = v then e.2.1 else e.1)).length
        = ((g.edges.filter (fun e => decide (e.1 = v ∨ e.2.1 = v))).map
          (fun e => if e.1 = v then e.2.1 else e.1)).toFinset.card :=
          (List.toFinset_card_of_nodup hothnd).symm
      _ ≤ (g.nodes.filter (fun u => decide (¬ u = v))).toFinset.card :=
          Finset.card_le_card (fun u hu =>
            List.mem_toFinset.mpr (hsub u (List.mem_toFinset.mp hu)))
      _ ≤ (g.nodes.filter (fun u => decide (¬ u = v))).length :=
          List.toFinset_card_le _
  have hlen3 : (g.nodes.filter (fun u => decide (¬ u = v))).length <
      g.nodes.length := by
    rw [List.length_filter_lt_length_iff_exists]
    exact ⟨v, hv, by simp⟩
  omega

/-- Without self-loop rows, every degree-centrality value lies in `[0, 1]`. -/
theorem degree_centrality_bounds (rows : List Row)
    (hs : ∀ r ∈ rows, r.nodeA ≠ r.nodeB) :
    ∀ p ∈ degree_centrality (buildGraph rows), 0 ≤ p.2 ∧ p.2 ≤ 1 := by
  intro p hp
  unfold degree_centrality at hp
  split at hp
  · obtain ⟨n, hn, rfl⟩ := List.mem_map.mp hp
    norm_num
  · rename_i hgt
    obtain ⟨n, hn, rfl⟩ := List.mem_map.mp hp
    have h2 : 2 ≤ (buildGraph rows).nodes.length := by omega
    have hdeg : degree (buildGraph rows) n + 1 ≤ (buildGraph rows).nodes.length :=
      degree_le_pred_card _ n (noLoops_buildGraph rows hs) (endsMem_buildGraph rows)
        (onePerPair_fold rows ⟨[], []⟩ List.Pairwise.nil) hn
    have hpos : (0 : Rat) < ((buildGraph rows).nodes.length : Rat) - 1 := by
      have hc : (2 : Rat) ≤ ((buildGraph rows).nodes.length : Rat) := by
        exact_mod_cast h2
      linarith
    constructor
    · exact div_nonneg (by positivity) (le_of_lt hpos)
    · rw [div_le_one hpos]
      have hc : (degree (buildGraph rows) n : Rat) + 1 ≤
          ((buildGraph rows).nodes.length : Rat) := by
        exact_mod_cast hdeg
      linarith

/-- Row shape of a `pd.merge` result. -/
theorem pdMerge_mem {α β : Type} {l : List (String × α)} {r : List (String × β)}
    {x : String × α × β} (hx : x ∈ pdMerge l r) :
    ∃ a ∈ l, ∃ b ∈ r, x = (a.1, a.2, b.2) := by
  unfold pdMerge at hx
  rw [List.mem_flatMap] at hx
  obtain ⟨a, ha, hx⟩ := hx
  rw [List.mem_map] at hx
  obtain ⟨b, hb, rfl⟩ := hx
  exact ⟨a, ha, b, (List.mem_filter.mp hb).1, rfl⟩

/-- **C7** (amended): for every input relation without self-loop rows
(`nodeA ≠ nodeB` in every row), every degree value in the produced
centrality table lies in `[0, 1]`.  (With self-loop rows the claim fails:
networkx counts a self-loop twice in the degree, pushing the normalized
value above 1 — see the counterexample.) -/
theorem degree_values_unit_interval_without_self_loops (rows : List Row)
    (hs : ∀ r ∈ rows, r.nodeA ≠ r.nodeB) (tab : CTable)
    (h : calc_centrality (buildGraph rows) = .ok tab) :
    ∀ row ∈ tab, 0 ≤ row.2.1.1 ∧ row.2.1.1 ≤ 1 := by
  intro row hrow
  unfold calc_centrality at h
  dsimp only at h
  split at h
  · cases h
  · rename_i ev hev
    cases h
    obtain ⟨a, ha, b, hb, rfl⟩ := pdMerge_mem hrow
    obtain ⟨a', ha', b', hb', rfl⟩ := pdMerge_mem ha
    exact degree_centrality_bounds rows hs a' ha'

/-- Witness for C7's amended statement on the concrete loop-free run. -/
theorem degree_values_unit_interval_without_self_loops_witness :
    (∀ r ∈ [(⟨"A", "B", 600⟩ : Row)], r.nodeA ≠ r.nodeB) ∧
    calc_centrality (buildGraph [⟨"A", "B", 600⟩]) =
      .ok [("A", ((1 : Rat), (0 : Rat)), (1 : Rat)/2),
           ("B", ((1 : Rat), (0 : Rat)), (1 : Rat)/2)] ∧
    (0 ≤ (("A", ((1 : Rat), (0 : Rat)), (1 : Rat)/2) :
        String × (Rat × Rat) × Rat).2.1.1 ∧
      (("A", ((1 : Rat), (0 : Rat)), (1 : Rat)/2) :
        String × (Rat × Rat) × Rat).2.1.1 ≤ 1) :=
  ⟨by decide, by decide,
    degree_values_unit_interval_without_self_loops [⟨"A", "B", 600⟩] (by decide)
      [("A", ((1 : Rat), (0 : Rat)), (1 : Rat)/2),
       ("B", ((1 : Rat), (0 : Rat)), (1 : Rat)/2)]
      (by decide) _ (by decide)⟩

/-- Counterexample to C7 as stated: with a self-loop row the produced table
contains the degree value 3 > 1 (node `A` of the graph on `{A, B}` has
networkx degree 3 — the self-loop counts twice — and `3 / (2 - 1) = 3`). -/
theorem self_loop_degree_value_above_one :
    calc_centrality (buildGraph [⟨"A", "A", 600⟩, ⟨"A", "B", 700⟩]) =
      .ok [("A", ((3 : Rat), (0 : Rat)), (2584 : Rat)/4181),
           ("B", ((1 : Rat), (0 : Rat)), (1597 : Rat)/4181)] ∧
    ¬ ((3 : Rat) ≤ 1) := by decide

end NetworkAnalysis
